import Mathlib

/-!
# Verification of the inkwell-mcp core against its specification

Shallow embedding of the repository's core components:

* the SQLite storage adapter (`src/db/sqlite.ts`, class `SqliteAdapter`):
  value serialization, `buildWhere` filter compilation, the query path,
  `insert` with id generation, and the migration runner `migrate()`;
* the auth resolver (`src/auth.ts`, `resolveAuth`);
* the JSON-RPC dispatcher (`src/mcp.ts`, `handleJsonRpc`);
* the stdio transport framer (`src/local/stdio.ts`, `processBuffer` /
  `handleMessage`).

JavaScript strings are modelled as `List Char` (for the framer) or
`String`, JS numbers used for rates as `ℚ` (the concrete inputs used
below are dyadic, where IEEE binary64 arithmetic is exact), mutation
as explicit state passing, and thrown JS values as an explicit error
type. JS values flowing through the adapter are scalars or arrays of
scalars — the shapes its call sites in this repository produce
(tag-name lists and `in`-filter lists).
-/

namespace Inkwell

/-! ## Scalar values (the dynamic row values of the adapter) -/

/-- A scalar JS value: `null`/`undefined` collapse to `sNull` (both
serialize to SQL NULL), plus booleans, integers, rationals (JS
numbers) and strings. -/
inductive Scalar where
  | sNull : Scalar
  | sBool : Bool → Scalar
  | sInt : Int → Scalar
  | sRat : ℚ → Scalar
  | sText : String → Scalar
  deriving DecidableEq, Repr

/-- A JS value as it appears in rows and filters: a scalar or an array
of scalars. -/
inductive Value where
  | scl : Scalar → Value
  | vArr : List Scalar → Value
  deriving DecidableEq, Repr

/-- NULL as a `Value`. -/
def vNull : Value := .scl .sNull

/-- JS truthiness test on a value (used by `insert`'s `!data.id` check). -/
def falsyValue : Value → Bool
  | .scl .sNull => true
  | .scl (.sBool b) => !b
  | .scl (.sInt n) => n == 0
  | .scl (.sRat q) => q == 0
  | .scl (.sText s) => s == ""
  | .vArr _ => false

/-- A minimal stand-in for `JSON.stringify` on a scalar (only quote
and backslash escaping, which is all the adapter's inputs need). -/
def jsonScalar : Scalar → String
  | .sNull => "null"
  | .sBool b => if b then "true" else "false"
  | .sInt n => toString n
  | .sRat q => toString q
  | .sText s =>
      let esc := s.toList.foldl
        (fun acc c =>
          if c = '"' ∨ c = '\\' then acc ++ ['\\', c] else acc ++ [c]) []
      "\"" ++ String.mk esc ++ "\""

/-- `JSON.stringify` on a value. -/
def jsonStringify : Value → String
  | .scl s => jsonScalar s
  | .vArr vs => "[" ++ String.intercalate "," (vs.map jsonScalar) ++ "]"

/-- `SqliteAdapter.serializeValue`: null/undefined → NULL, arrays and
objects → JSON text, booleans → 0/1, everything else passes through. -/
def serializeValue : Value → Value
  | .scl .sNull => .scl .sNull
  | .vArr vs => .scl (.sText (jsonStringify (.vArr vs)))
  | .scl (.sBool b) => .scl (.sInt (if b then 1 else 0))
  | v => v

/-! ## Rows and filters -/

/-- A row: ordered column/value pairs (a JS object, insertion order kept). -/
abbrev Row := List (String × Value)

/-- Object property read: `row[col]`, `none` = property absent (undefined). -/
def rowGet (r : Row) (col : String) : Option Value :=
  (r.find? (fun kv => kv.1 == col)).map (·.2)

/-- Object property write `row[col] = v`: overwrites in place when the
key exists, appends otherwise (JS object semantics). -/
def rowSet (r : Row) (col : String) (v : Value) : Row :=
  if (r.find? (fun kv => kv.1 == col)).isSome then
    r.map (fun kv => if kv.1 == col then (kv.1, v) else kv)
  else
    r ++ [(col, v)]

/-- Filter operators of the adapter (`in` is `inOp`: Lean keyword). -/
inductive FOp where
  | eq | neq | gt | gte | lt | lte | like | ilike | is | inOp | cs
  deriving DecidableEq, Repr

/-- A (column, operator, value) filter triple. -/
structure Filter where
  column : String
  op : FOp
  value : Value
  deriving DecidableEq, Repr

/-- One compiled WHERE clause, as an AST instead of SQL text: each
constructor corresponds to exactly one `clauses.push` in
`SqliteAdapter.buildWhere`, carrying its bound parameter(s). -/
inductive Clause where
  | cEq (col : String) (v : Value)
  | cNeq (col : String) (v : Value)
  | cGt (col : String) (v : Value)
  | cGte (col : String) (v : Value)
  | cLt (col : String) (v : Value)
  | cLte (col : String) (v : Value)
  | cLike (col : String) (v : Value)
  | cIlike (col : String) (v : Value)
  | cIsNull (col : String)
  | cIs (col : String) (v : Value)
  | cIn (col : String) (vs : List Scalar)
  | cCs (col : String) (pat : String)
  deriving DecidableEq, Repr

/-- String coercion used by the `cs` arm's `String(f.value)`. -/
def jsString : Value → String
  | .scl .sNull => "null"
  | .scl (.sBool b) => if b then "true" else "false"
  | .scl (.sInt n) => toString n
  | .scl (.sRat q) => toString q
  | .scl (.sText s) => s
  | .vArr vs => String.intercalate "," (vs.map jsonScalar)

/-- `SqliteAdapter.buildWhere`, clause list: one clause per filter,
except `in` with a non-array or empty-array value, which pushes
nothing (the `if (Array.isArray(f.value) && f.value.length > 0)`
guard). `eq`/`neq` serialize their value first; the comparison and
LIKE arms bind the raw value. -/
def buildWhereClauses : List Filter → List Clause
  | [] => []
  | f :: rest =>
    let acc := buildWhereClauses rest
    match f.op with
    | .eq => .cEq f.column (serializeValue f.value) :: acc
    | .neq => .cNeq f.column (serializeValue f.value) :: acc
    | .gt => .cGt f.column f.value :: acc
    | .gte => .cGte f.column f.value :: acc
    | .lt => .cLt f.column f.value :: acc
    | .lte => .cLte f.column f.value :: acc
    | .like => .cLike f.column f.value :: acc
    | .ilike => .cIlike f.column f.value :: acc
    | .is => (if f.value = vNull then .cIsNull f.column
              else .cIs f.column f.value) :: acc
    | .inOp => (match f.value with
        | .vArr vs => if vs.length > 0 then .cIn f.column vs :: acc else acc
        | _ => acc)
    | .cs => .cCs f.column ("%" ++ jsString f.value ++ "%") :: acc

/-- The filters `buildWhere`'s `in` arm skips entirely: operator `in`
with an empty array (or a non-array value). -/
def inFilterDropped (f : Filter) : Bool :=
  match f.op, f.value with
  | .inOp, .vArr vs => vs.isEmpty
  | .inOp, _ => true
  | _, _ => false

/-- Numeric view of a value (SQLite INTEGER/REAL affinity). -/
def numVal : Value → Option ℚ
  | .scl (.sInt n) => some (n : ℚ)
  | .scl (.sRat q) => some q
  | _ => none

/-- SQLite comparison collapsed to "row is kept": numbers compare
numerically, strings lexicographically, NULL or mixed types never
keep the row (three-valued logic collapsed to false in a WHERE). -/
def sqlCmp (keepQ : ℚ → ℚ → Bool) (keepS : String → String → Bool)
    (a b : Value) : Bool :=
  match numVal a, numVal b with
  | some x, some y => keepQ x y
  | _, _ =>
      match a, b with
      | .scl (.sText x), .scl (.sText y) => keepS x y
      | _, _ => false

/-- SQL `LIKE` with `%` and `_` wildcards (case-sensitive form). -/
def likeMatch : List Char → List Char → Bool
  | [], [] => true
  | [], _ :: _ => false
  | '%' :: ps, [] => likeMatch ps []
  | '%' :: ps, c :: cs => likeMatch ps (c :: cs) || likeMatch ('%' :: ps) cs
  | '_' :: ps, _ :: cs => likeMatch ps cs
  | _ :: _, [] => false
  | p :: ps, c :: cs => p == c && likeMatch ps cs
termination_by ps cs => (cs.length, ps.length)

/-- SQL semantics of one compiled clause against a row (NULL never
compares equal; an absent column reads as NULL). -/
def clauseHolds (r : Row) (c : Clause) : Bool :=
  let get := fun col => (rowGet r col).getD vNull
  match c with
  | .cEq col v => get col != vNull && v != vNull && get col == v
  | .cNeq col v => get col != vNull && v != vNull && get col != v
  | .cGt col v => sqlCmp (fun x y => x > y) (fun x y => decide (x > y)) (get col) v
  | .cGte col v => sqlCmp (fun x y => x ≥ y) (fun x y => decide (x ≥ y)) (get col) v
  | .cLt col v => sqlCmp (fun x y => x < y) (fun x y => decide (x < y)) (get col) v
  | .cLte col v => sqlCmp (fun x y => x ≤ y) (fun x y => decide (x ≤ y)) (get col) v
  | .cLike col v => (match get col, v with
      | .scl (.sText s), .scl (.sText p) => likeMatch p.toList s.toList
      | _, _ => false)
  | .cIlike col v => (match get col, v with
      | .scl (.sText s), .scl (.sText p) =>
          likeMatch p.toLower.toList s.toLower.toList
      | _, _ => false)
  | .cIsNull col => get col == vNull
  | .cIs col v => get col == v
  | .cIn col vs => vs.any (fun v => get col != vNull && get col == Value.scl v)
  | .cCs col pat => (match get col with
      | .scl (.sText s) => likeMatch pat.toList s.toList
      | _ => false)

/-- The query path of `SqliteAdapter.query` restricted to its WHERE
component (projection, ORDER BY and LIMIT are orthogonal to the claims
and omitted): with no filters the statement has no WHERE and every row
is returned; with filters, `buildWhere` emits `WHERE <clauses joined
by AND>` — when every clause was skipped the join is empty and the
statement text ends in a bare `WHERE`, so the prepare step throws
(modelled as `Except.error`). -/
def querySem (rows : List Row) (filters : List Filter) :
    Except String (List Row) :=
  if filters.isEmpty then .ok rows
  else if (buildWhereClauses filters).isEmpty then
    .error "malformed SQL: empty WHERE"
  else
    .ok (rows.filter (fun r => (buildWhereClauses filters).all (clauseHolds r)))

/-! ## `insert` and id generation -/

/-- One lowercase hex digit. -/
def hexChar (n : Nat) : Char :=
  if n < 10 then Char.ofNat ('0'.toNat + n)
  else Char.ofNat ('a'.toNat + (n - 10))

/-- `b.toString(16).padStart(2, '0')` for a byte. -/
def byteHex (b : Nat) : List Char :=
  [hexChar (b / 16 % 16), hexChar (b % 16)]

/-- `SqliteAdapter.generateId`: 16 random bytes rendered as 2 hex
digits each; the randomness is passed in as the byte list. -/
def generateId (bytes : List Nat) : String :=
  String.mk ((bytes.map byteHex).flatten)

/-- The mutation step of `SqliteAdapter.insert`: `if (!data.id)
data.id = this.generateId()` — the caller's object is updated in
place, modelled by returning the updated row. -/
def insertAssignId (bytes : List Nat) (data : Row) : Row :=
  if falsyValue ((rowGet data "id").getD vNull) then
    rowSet data "id" (.scl (.sText (generateId bytes)))
  else data

/-! ## Migration runner

`SqliteAdapter.migrate()` reads the applied names from `_migrations`,
then for each pending migration runs `db.exec(migration.sql)` followed
by a separate `INSERT INTO _migrations`. `exec` runs the script's
statements one by one with no surrounding transaction, so a failing
statement leaves the earlier statements of the same script applied.
A script statement is modelled as a label plus a success flag; the
schema is the list of labels of the statements applied so far. -/

/-- One SQL statement of a migration script: its label and whether
executing it succeeds. -/
structure Stmt where
  sid : String
  ok : Bool
  deriving DecidableEq, Repr

/-- A migration: ledger name plus script. -/
structure Migration where
  name : String
  sql : List Stmt
  deriving DecidableEq, Repr

/-- Adapter state: the `_migrations` ledger and the applied-statement
trace standing in for the database schema. -/
structure DbState where
  ledger : List String
  schema : List String
  deriving DecidableEq, Repr

/-- `db.exec(sql)`: statements run in order, each committing on its
own; the first failing statement aborts the rest (`false`), leaving
the earlier ones applied. -/
def execScript (stmts : List Stmt) (schema : List String) :
    List String × Bool :=
  match stmts with
  | [] => (schema, true)
  | s :: rest =>
      if s.ok then execScript rest (schema ++ [s.sid])
      else (schema, false)

/-- `SqliteAdapter.migrate()` over a migration list: skip names already
in the ledger; otherwise exec the script, then insert the ledger row.
Returns (state, success, names of migrations whose scripts ran). A
script failure propagates out immediately — with the script's
successful statements applied and no ledger row written. -/
def migrate : List Migration → DbState → DbState × Bool × List String
  | [], st => (st, true, [])
  | m :: rest, st =>
      if m.name ∈ st.ledger then migrate rest st
      else
        match execScript m.sql st.schema with
        | (schema', true) =>
            let res := migrate rest ⟨st.ledger ++ [m.name], schema'⟩
            (res.1, res.2.1, m.name :: res.2.2)
        | (schema', false) => (⟨st.ledger, schema'⟩, false, [m.name])

/-- The adapter's inlined `MIGRATIONS` constant: three migrations whose
scripts are `CREATE TABLE IF NOT EXISTS` / `CREATE INDEX IF NOT
EXISTS` statements (all succeed), identified by the same names. -/
def MIGRATIONS : List Migration :=
  [⟨"001_core.sql", [⟨"core_tables", true⟩, ⟨"core_indexes", true⟩]⟩,
   ⟨"002_editorial.sql", [⟨"editorial_tables", true⟩, ⟨"editorial_indexes", true⟩]⟩,
   ⟨"003_usage.sql", [⟨"usage_tables", true⟩, ⟨"usage_indexes", true⟩]⟩]

/-! ## Auth resolver (`src/auth.ts`) -/

inductive Role where
  | owner | pub
  deriving DecidableEq, Repr

structure AuthContext where
  role : Role
  deriving DecidableEq, Repr

/-- JS falsiness of an optional string: `undefined` or `""`. -/
def falsyStr : Option String → Bool
  | none => true
  | some s => s == ""

/-- `resolveAuth(authEnabled, ownerKey?, providedKey?)`: disabled auth
grants owner; a falsy provided or owner key yields public; exact
string equality grants owner; anything else is public. -/
def resolveAuth (authEnabled : Bool) (ownerKey providedKey : Option String) :
    AuthContext :=
  if !authEnabled then ⟨.owner⟩
  else if falsyStr providedKey || falsyStr ownerKey then ⟨.pub⟩
  else if providedKey == ownerKey then ⟨.owner⟩
  else ⟨.pub⟩

/-! ## JSON-RPC dispatcher (`src/mcp.ts`)

The dispatcher is modelled polymorphically in the environment/database
state `σ` threaded through tool handlers (the `env` handle of the
source); tool results are `Value`s. A handler either returns a value
or throws, and a thrown JS value is either a `{code, message}` object,
an `Error` instance, or some other value coerced by `String(err)`. -/

/-- The `id` field of a request: absent (`undefined`), JSON `null`,
a number, or a string. -/
inductive RpcId where
  | absent | jnull
  | num (n : Int)
  | str (s : String)
  deriving DecidableEq, Repr

/-- `params` of a request, as used by `tools/call`:
`params?.name` and `params?.arguments`. -/
structure RpcParams where
  name : Option String
  arguments : Option Row
  deriving DecidableEq, Repr

/-- A parsed JSON-RPC request. -/
structure JsonRpcRequest where
  id : RpcId
  method : String
  params : Option RpcParams
  deriving DecidableEq, Repr

/-- Result payloads the dispatcher produces (`mcpResult` second
argument), by method: the `initialize` info object, the `tools/list`
descriptor list, the `tools/call` text-content wrapper around the
handler result's JSON, and the empty object for acknowledgements. -/
inductive RpcResult where
  | initInfo
  | toolList (names : List String)
  | content (text : String)
  | emptyObj
  deriving DecidableEq, Repr

/-- A JSON-RPC response: `mcpResult` (has a `result` field, no
`error`) or `mcpError` (has an `error` field, no `result`). -/
inductive JsonRpcResponse where
  | ok (id : RpcId) (result : RpcResult)
  | err (id : RpcId) (code : Int) (message : String)
  deriving DecidableEq, Repr

/-- A JS value thrown by a tool handler: an object with `code` and
`message` fields, an `Error` (only its `.message` is used), or any
other value (only its string coercion is used). -/
inductive ThrownErr where
  | coded (code : Int) (message : String)
  | exn (message : String)
  | strv (s : String)
  deriving DecidableEq, Repr

/-- A registered tool: name plus handler. `handler(args, ctx, env)`
returns a result or throws; the environment state is threaded
explicitly. Description and input schema are carried for
`tools/list` but have no behaviour. -/
structure McpTool (σ : Type) where
  name : String
  handler : Row → Option AuthContext → σ → σ × Except ThrownErr Value

/-- `TOOL_MAP.get(name)`: a JS `Map` built from an entry array keeps
the last entry per key, hence the lookup on the reversed list. -/
def toolMapGet {σ : Type} (tools : List (McpTool σ)) (name : String) :
    Option (McpTool σ) :=
  tools.reverse.find? (fun t => t.name == name)

/-- A JSON serialization stand-in for `JSON.stringify(result, null, 2)`
used when wrapping a successful handler result. -/
def resultText (v : Value) : String := jsonStringify v

/-- `handleJsonRpc(req, ctx, env)` from `src/mcp.ts`: route on the
method name; `tools/call` resolves `params?.name` (a falsy name —
absent params, absent name, or empty string — is a `-32602`), looks
the tool up (unknown → `-32601`), runs the handler, wraps a success as
text content, surfaces a thrown `{code, message}` verbatim and wraps
any other throw as `-32603` with the message appended to
`"Tool error: "`. `initialize`, `tools/list`, `ping` and
`notifications/initialized` always succeed; any other method is
`-32601`. -/
def handleJsonRpc {σ : Type} (tools : List (McpTool σ))
    (req : JsonRpcRequest) (ctx : Option AuthContext) (st : σ) :
    σ × JsonRpcResponse :=
  if req.method = "initialize" then
    (st, .ok req.id .initInfo)
  else if req.method = "tools/list" then
    (st, .ok req.id (.toolList (tools.map (·.name))))
  else if req.method = "tools/call" then
    match req.params.bind (fun p => p.name) with
    | none => (st, .err req.id (-32602) "Missing tool name")
    | some nm =>
      if nm = "" then (st, .err req.id (-32602) "Missing tool name")
      else
        match toolMapGet tools nm with
        | none => (st, .err req.id (-32601) ("Unknown tool: " ++ nm))
        | some t =>
            let args := (req.params.bind (fun p => p.arguments)).getD []
            match t.handler args ctx st with
            | (st', .ok v) => (st', .ok req.id (.content (resultText v)))
            | (st', .error (.coded c m)) => (st', .err req.id c m)
            | (st', .error (.exn m)) =>
                (st', .err req.id (-32603) ("Tool error: " ++ m))
            | (st', .error (.strv s)) =>
                (st', .err req.id (-32603) ("Tool error: " ++ s))
  else if req.method = "notifications/initialized" ∨ req.method = "ping" then
    (st, .ok req.id .emptyObj)
  else
    (st, .err req.id (-32601) ("Method not found: " ++ req.method))

/-- `handleMessage` from `src/local/stdio.ts`, after JSON parsing:
await the dispatcher (its side effects always run), then write the
response frame only when `req.id !== null && req.id !== undefined`.
The emitted frames are modelled as the list of responses written. -/
def handleMessage {σ : Type} (tools : List (McpTool σ))
    (req : JsonRpcRequest) (ctx : Option AuthContext) (st : σ) :
    σ × List JsonRpcResponse :=
  let (st', resp) := handleJsonRpc tools req ctx st
  match req.id with
  | .absent => (st', [])
  | .jnull => (st', [])
  | _ => (st', [resp])

/-! ## Transport framer (`src/local/stdio.ts`, `processBuffer`)

The accumulation buffer is a `List Char` (the source accumulates a JS
string). `processBuffer` returns the message bodies handed to
`handleMessage`, in order, plus the remaining buffer. -/

/-- The blank-line header terminator searched with
`buffer.indexOf('\r\n\r\n')`. -/
def CRLF2 : List Char := ['\r', '\n', '\r', '\n']

/-- `String.prototype.indexOf` on char lists: index of the first
occurrence of `pat`, scanning left to right. -/
def findSub (pat : List Char) : List Char → Option Nat
  | [] => if pat.isPrefixOf ([] : List Char) then some 0 else none
  | c :: rest =>
      if pat.isPrefixOf (c :: rest) then some 0
      else (findSub pat rest).map (· + 1)

/-- The whitespace class of the JS `\s` regex escape and of
`String.prototype.trim` (ASCII part; the Unicode spaces never occur in
the inputs considered and are disjoint from every character the proofs
distinguish). -/
def isJsSpace (c : Char) : Bool :=
  c == ' ' || c == '\t' || c == '\n' || c == '\r' || c == '\x0B' || c == '\x0C'

/-- `String.prototype.trim`. -/
def jsTrim (l : List Char) : List Char :=
  ((l.dropWhile isJsSpace).reverse.dropWhile isJsSpace).reverse

/-- The literal of the `/Content-Length:\s*(\d+)/i` regex, lowercased
for the case-insensitive comparison. -/
def clPat : List Char := "content-length:".toList

/-- Case-insensitive literal match at the head: returns the rest of
the input past the pattern. -/
def stripCI : List Char → List Char → Option (List Char)
  | [], l => some l
  | _ :: _, [] => none
  | p :: ps, c :: cs => if c.toLower == p then stripCI ps cs else none

/-- Decimal digit run to a number (`parseInt(match[1], 10)`). -/
def digitsToNat (ds : List Char) : Nat :=
  ds.foldl (fun a c => a * 10 + (c.toNat - '0'.toNat)) 0

/-- One attempt of the `Content-Length` regex at the current position:
the literal (case-insensitively), then `\s*` (maximal munch — `\s` and
`\d` are disjoint, so the regex engine never backtracks here), then a
maximal nonempty digit run. -/
def matchCL (l : List Char) : Option Nat :=
  match stripCI clPat l with
  | none => none
  | some rest =>
      let ds := (rest.dropWhile isJsSpace).takeWhile Char.isDigit
      if ds.isEmpty then none else some (digitsToNat ds)

/-- `header.match(/Content-Length:\s*(\d+)/i)`: the regex engine tries
each start position left to right and returns the first full match. -/
def contentLengthOf : List Char → Option Nat
  | [] => none
  | c :: rest =>
      match matchCL (c :: rest) with
      | some n => some n
      | none => contentLengthOf rest

/-- The header-branch guard of `processBuffer`: the buffer contains
`\r\n\r\n` and the part before it matches the `Content-Length` regex.
Returns the header end index and the parsed length. -/
def headerInfo (buffer : List Char) : Option (Nat × Nat) :=
  match findSub CRLF2 buffer with
  | some headerEnd =>
      (contentLengthOf (buffer.take headerEnd)).map (fun n => (headerEnd, n))
  | none => none

/-- `processBuffer` from `src/local/stdio.ts`: loop while the buffer
is non-empty; prefer the Content-Length framing (waiting when fewer
than `contentLength` bytes follow the header), otherwise fall back to
line-delimited extraction (skipping blank lines), stopping when
neither a complete frame nor a newline is present. Returns the
extracted bodies in order and the remaining buffer. -/
def processBuffer (buffer : List Char) : List (List Char) × List Char :=
  if hemp : buffer.isEmpty then ([], [])
  else
    match headerInfo buffer with
    | some (headerEnd, contentLength) =>
        let bodyStart := headerEnd + 4
        if buffer.length - bodyStart < contentLength then ([], buffer)
        else
          let body := (buffer.drop bodyStart).take contentLength
          let (ms, r) := processBuffer (buffer.drop (bodyStart + contentLength))
          (body :: ms, r)
    | none =>
        match findSub ['\n'] buffer with
        | none => ([], buffer)
        | some lineEnd =>
            let line := jsTrim (buffer.take lineEnd)
            if line.isEmpty then processBuffer (buffer.drop (lineEnd + 1))
            else
              let (ms, r) := processBuffer (buffer.drop (lineEnd + 1))
              (line :: ms, r)
termination_by buffer.length
decreasing_by
  all_goals
    simp only [List.length_drop]
    have hne : buffer ≠ [] := by simpa using hemp
    have hpos : 0 < buffer.length := List.length_pos.mpr hne
    omega

/-- One `data` event: append the chunk, then drain the buffer. -/
def feedStep (acc : List (List Char) × List Char) (c : List Char) :
    List (List Char) × List Char :=
  let (ms, r) := processBuffer (acc.2 ++ c)
  (acc.1 ++ ms, r)

/-- Feeding a whole chunk sequence through the accumulate-and-drain
loop, starting from the session's empty buffer: all extracted bodies
in order, plus the final buffered remainder. -/
def feedChunks (chunks : List (List Char)) : List (List Char) × List Char :=
  chunks.foldl feedStep ([], [])

/-! ### Canonical length-prefixed frames

For the chunking-invariance analysis, a canonical frame is
`Content-Length: <digits>\r\n\r\n<body>` with `body.length` equal to
the digits' value. -/

/-- The header literal as written by the server itself. -/
def clHeaderChars : List Char := "Content-Length: ".toList

/-- A canonical frame from its digit string and body. -/
def frameOf (ds body : List Char) : List Char :=
  clHeaderChars ++ ds ++ CRLF2 ++ body

/-- Frame length: 16 header-literal chars, the digits, the 4
terminator chars, and the body. -/
def flen (f : List Char × List Char) : Nat :=
  16 + f.1.length + 4 + f.2.length

/-- A well-formed canonical frame: nonempty digit string, digits only,
body length as announced. -/
def wfFrame (f : List Char × List Char) : Prop :=
  f.1 ≠ [] ∧ (∀ c ∈ f.1, c.isDigit) ∧ f.2.length = digitsToNat f.1

instance (f : List Char × List Char) : Decidable (wfFrame f) := by
  unfold wfFrame
  infer_instance

/-- The byte stream of a frame sequence. -/
def streamOf (fs : List (List Char × List Char)) : List Char :=
  (fs.map (fun f => frameOf f.1 f.2)).flatten

/-- A cut position is safe when it does not fall strictly inside a
frame's terminating blank line: within each frame, the buffer either
has not yet reached the header's first `\n` (so the line fallback
stays idle) or already holds the whole `\r\n\r\n` (so the
Content-Length branch takes over). The two excluded offsets per frame
are `16 + digits + 2` and `16 + digits + 3`. -/
def safeLen : List (List Char × List Char) → Nat → Bool
  | [], _ => true
  | f :: fs, n =>
      if n = 0 then true
      else if flen f ≤ n then safeLen fs (n - flen f)
      else decide (n ≤ 16 + f.1.length + 1) ||
           decide (16 + f.1.length + 4 ≤ n)

/-- What draining should do on a prefix of a canonical stream: peel
each fully present frame, keep the rest buffered. -/
def canonSpec : List (List Char × List Char) → List Char →
    List (List Char) × List Char
  | [], P => ([], P)
  | f :: fs, P =>
      if flen f ≤ P.length then
        let (ms, r) := canonSpec fs (P.drop (flen f))
        (f.2 :: ms, r)
      else ([], P)

/-! ## Rate rounding (`get_stats` handler, `src/tools/stats.ts`)

`avg_open_rate: Math.round(avgOpenRate * 10) / 10`. JS numbers are
modelled as `ℚ`; the counterexample input below is dyadic, where
binary64 arithmetic computes the same value exactly. -/

/-- `Math.round`: round half toward positive infinity, `⌊x + 1/2⌋`. -/
def mathRound (x : ℚ) : ℤ := ⌊x + 1/2⌋

/-- The stats handler's one-decimal rounding:
`Math.round(x * 10) / 10`. -/
def roundRate1 (x : ℚ) : ℚ := (mathRound (x * 10) : ℚ) / 10

/-- Round half away from zero (the rule the specification names). -/
def halfAwayFromZero (x : ℚ) : ℤ :=
  if 0 ≤ x then ⌊x + 1/2⌋ else -⌊-x + 1/2⌋

/-- The specification's stated rule: half-away-from-zero on the value
scaled by 10, then divided by 10. -/
def specRoundRate1 (x : ℚ) : ℚ := (halfAwayFromZero (x * 10) : ℚ) / 10

/-- The raw average open rate over the published articles' rates
(0 when there are none), before rounding. -/
def avgOpenRate (rates : List ℚ) : ℚ :=
  if rates.isEmpty then 0 else rates.sum / rates.length

/-- The `avg_open_rate` field computed by `get_stats`. -/
def statsAvgOpenRate (rates : List ℚ) : ℚ := roundRate1 (avgOpenRate rates)

/-! ## Concrete demonstration tools (used by witnesses) -/

/-- A tool whose only effect is to bump a `Nat` environment counter:
demonstrates that handler side effects run for notifications. -/
def tickTool : McpTool Nat :=
  ⟨"tick", fun _ _ n => (n + 1, .ok vNull)⟩

/-- A tool that throws a `{code, message}` object (the shape
`requireOwner` throws). -/
def failCodedTool : McpTool Nat :=
  ⟨"fail_coded", fun _ _ n => (n, .error (.coded 403 "Owner access required"))⟩

/-- A tool that throws an `Error`. -/
def failExnTool : McpTool Nat :=
  ⟨"fail_exn", fun _ _ n => (n, .error (.exn "boom"))⟩

/-! # Helper lemmas -/

/-- A prefix match bounds the haystack length. -/
theorem isPrefixOf_length {p l : List Char} (h : p.isPrefixOf l = true) :
    p.length ≤ l.length := by
  induction p generalizing l with
  | nil => simp
  | cons a as ih =>
      cases l with
      | nil => simp [List.isPrefixOf] at h
      | cons b bs =>
          simp only [List.isPrefixOf, Bool.and_eq_true] at h
          simpa using ih h.2

/-- `findSub` returns a position where the pattern still fits. -/
theorem findSub_bound {pat l : List Char} {k : Nat}
    (h : findSub pat l = some k) : k + pat.length ≤ l.length := by
  induction l generalizing k with
  | nil =>
      simp only [findSub] at h
      split at h
      · cases h
        have hb := isPrefixOf_length (by assumption)
        simp only [List.length_nil] at hb ⊢
        omega
      · cases h
  | cons c rest ih =>
      simp only [findSub] at h
      split at h
      · cases h
        simpa using isPrefixOf_length (by assumption)
      · cases hk : findSub pat rest with
        | none => rw [hk] at h; cases h
        | some k' =>
            rw [hk] at h
            simp only [Option.map_some'] at h
            cases h
            have := ih hk
            simp only [List.length_cons]
            omega

/-- Replacing the value at key `k` leaves `find?` for `k` pointing at
the same position, with the new value. -/
theorem find?_map_key (r : Row) (k : String) (v : Value) :
    ((r.map (fun kv => if kv.1 == k then (kv.1, v) else kv)).find?
        (fun kv => kv.1 == k)) =
      (r.find? (fun kv => kv.1 == k)).map (fun kv => (kv.1, v)) := by
  induction r with
  | nil => rfl
  | cons kv rest ih =>
      by_cases h : kv.1 == k
      · simp only [List.map_cons, if_pos h]
        have h2 : List.find? (fun kv => kv.1 == k) (kv :: rest) = some kv :=
          List.find?_cons_of_pos _ h
        rw [List.find?_cons_of_pos _ (by simpa using h), h2]
        simp
      · simp only [List.map_cons, if_neg h]
        rw [List.find?_cons_of_neg _ (by simpa using h),
            List.find?_cons_of_neg _ (by simpa using h)]
        exact ih

/-- Replacing the value at key `k` does not affect `find?` for a
different key. -/
theorem find?_map_key_other (r : Row) (k k' : String) (v : Value)
    (h : k' ≠ k) :
    ((r.map (fun kv => if kv.1 == k then (kv.1, v) else kv)).find?
        (fun kv => kv.1 == k')) =
      r.find? (fun kv => kv.1 == k') := by
  induction r with
  | nil => rfl
  | cons kv rest ih =>
      by_cases hk : kv.1 == k
      · have hk' : (kv.1 == k') = false := by
          have : kv.1 = k := by simpa using hk
          simp [this, (Ne.symm h)]
        simp only [List.map_cons, if_pos hk]
        rw [List.find?_cons_of_neg _ (by simp [hk']),
            List.find?_cons_of_neg _ (by simp [hk'])]
        exact ih
      · simp only [List.map_cons, if_neg hk]
        by_cases hk2 : kv.1 == k'
        · rw [List.find?_cons_of_pos _ (by simpa using hk2),
              List.find?_cons_of_pos _ (by simpa using hk2)]
        · rw [List.find?_cons_of_neg _ (by simpa using hk2),
              List.find?_cons_of_neg _ (by simpa using hk2)]
          exact ih

/-- Reading back the key just written. -/
theorem rowGet_rowSet_same (r : Row) (k : String) (v : Value) :
    rowGet (rowSet r k v) k = some v := by
  unfold rowSet
  by_cases h : (r.find? (fun kv => kv.1 == k)).isSome
  · rw [if_pos h]
    unfold rowGet
    rw [find?_map_key]
    obtain ⟨kv0, hkv⟩ := Option.isSome_iff_exists.mp h
    simp [hkv]
  · rw [if_neg h]
    unfold rowGet
    rw [List.find?_append]
    have hnone : r.find? (fun kv => kv.1 == k) = none := by
      cases hf : r.find? (fun kv => kv.1 == k) with
      | none => rfl
      | some kv0 => rw [hf] at h; simp at h
    simp [hnone, List.find?]

/-- Writing key `k` leaves every other key unchanged. -/
theorem rowGet_rowSet_other (r : Row) (k k' : String) (v : Value)
    (h : k' ≠ k) :
    rowGet (rowSet r k v) k' = rowGet r k' := by
  unfold rowSet
  by_cases hs : (r.find? (fun kv => kv.1 == k)).isSome
  · rw [if_pos hs]
    unfold rowGet
    rw [find?_map_key_other _ _ _ _ h]
  · rw [if_neg hs]
    unfold rowGet
    rw [List.find?_append]
    have hkk : (k == k') = false := beq_eq_false_iff_ne.mpr (Ne.symm h)
    have : (([(k, v)] : Row).find? (fun kv => kv.1 == k')) = none := by
      simp [List.find?, hkk]
    cases hf : r.find? (fun kv => kv.1 == k') with
    | none => simp [this]
    | some kv0 => simp

/-- Every hex digit produced by `hexChar` on an input below 16 is a
lowercase hex character. -/
theorem hexChar_mem : ∀ n < 16, hexChar n ∈ ("0123456789abcdef".toList) := by
  decide

/-- `generateId` emits two characters per byte. -/
theorem generateId_length (bytes : List Nat) :
    (generateId bytes).length = 2 * bytes.length := by
  unfold generateId
  induction bytes with
  | nil => rfl
  | cons b rest ih =>
      simp only [List.map_cons, List.flatten_cons]
      have : (String.mk (byteHex b ++ (rest.map byteHex).flatten)).length =
          (byteHex b).length + (String.mk ((rest.map byteHex).flatten)).length := by
        simp [String.length]
      rw [this, ih]
      simp [byteHex]
      ring

/-- `migrate` unfolding: a migration already in the ledger is skipped. -/
theorem migrate_cons_skip (m : Migration) (rest : List Migration)
    (st : DbState) (h : m.name ∈ st.ledger) :
    migrate (m :: rest) st = migrate rest st := by
  simp [migrate, h]

/-- `migrate` unfolding: a pending migration whose script succeeds is
applied, recorded, and the rest continues from the updated state. -/
theorem migrate_cons_ok (m : Migration) (rest : List Migration)
    (st : DbState) (schema' : List String) (hm : m.name ∉ st.ledger)
    (hex : execScript m.sql st.schema = (schema', true)) :
    migrate (m :: rest) st =
      ((migrate rest ⟨st.ledger ++ [m.name], schema'⟩).1,
       (migrate rest ⟨st.ledger ++ [m.name], schema'⟩).2.1,
       m.name :: (migrate rest ⟨st.ledger ++ [m.name], schema'⟩).2.2) := by
  simp only [migrate, if_neg hm, hex]

/-- `migrate` unfolding: a pending migration whose script fails stops
the run with the partial schema applied and no ledger row. -/
theorem migrate_cons_fail (m : Migration) (rest : List Migration)
    (st : DbState) (schema' : List String) (hm : m.name ∉ st.ledger)
    (hex : execScript m.sql st.schema = (schema', false)) :
    migrate (m :: rest) st = (⟨st.ledger, schema'⟩, false, [m.name]) := by
  simp only [migrate, if_neg hm, hex]

/-- The ledger only grows across `migrate`. -/
theorem migrate_ledger_mono (migs : List Migration) (st : DbState) :
    ∀ x ∈ st.ledger, x ∈ (migrate migs st).1.ledger := by
  induction migs generalizing st with
  | nil => intro x hx; simpa [migrate] using hx
  | cons m rest ih =>
      intro x hx
      simp only [migrate]
      split
      · exact ih st x hx
      · rcases hex : execScript m.sql st.schema with ⟨schema', ok⟩
        cases ok with
        | false => simpa using hx
        | true =>
            have := ih ⟨st.ledger ++ [m.name], schema'⟩ x (by simp [hx])
            simpa using this

/-! # Claims -/

/-- C1 (counterexample). The claim says: whenever the filter list
contains an `in` filter with an empty value list, the returned row
list is empty. On the code, the empty-`in` clause is silently skipped
by `buildWhere`: with filters `[a in [], b eq 2]` over a table holding
the single row `{a: 1, b: 2}`, `query` returns that row (matching only
the remaining filter), not the empty list. -/
theorem c1_counterexample :
    querySem [[("a", Value.scl (.sInt 1)), ("b", Value.scl (.sInt 2))]]
        [⟨"a", .inOp, .vArr []⟩, ⟨"b", .eq, .scl (.sInt 2)⟩] =
      .ok [[("a", Value.scl (.sInt 1)), ("b", Value.scl (.sInt 2))]] ∧
    querySem [[("a", Value.scl (.sInt 1)), ("b", Value.scl (.sInt 2))]]
        [⟨"a", .inOp, .vArr []⟩, ⟨"b", .eq, .scl (.sInt 2)⟩] ≠
      .ok [] := by
  refine ⟨rfl, fun h => List.noConfusion (Except.ok.inj h)⟩

/-- C1 (amended). An `in` filter with an empty value list is silently
ignored: `buildWhere` compiles exactly the clauses of the filter list
with the dropped `in` filters removed, so `query` returns the rows
matching only the remaining filters (and when no filter compiles a
clause at all, the generated statement ends in a bare `WHERE` and the
query fails instead of returning anything). -/
theorem c1_empty_in_silently_ignored :
    (∀ filters : List Filter,
       buildWhereClauses filters =
         buildWhereClauses (filters.filter (fun f => !inFilterDropped f))) ∧
    (∀ (rows : List Row) (filters : List Filter),
       filters.isEmpty = false → (buildWhereClauses filters).isEmpty = false →
       querySem rows filters =
         .ok (rows.filter (fun r =>
           (buildWhereClauses
               (filters.filter (fun f => !inFilterDropped f))).all
             (clauseHolds r)))) := by
  have key : ∀ filters : List Filter,
      buildWhereClauses filters =
        buildWhereClauses (filters.filter (fun f => !inFilterDropped f)) := by
    intro filters
    induction filters with
    | nil => rfl
    | cons f rest ih =>
        rcases f with ⟨col, op, v⟩
        cases op with
        | inOp =>
            cases v with
            | scl s => simpa [buildWhereClauses, List.filter_cons,
                inFilterDropped] using ih
            | vArr vs =>
                cases vs with
                | nil => simpa [buildWhereClauses, List.filter_cons,
                    inFilterDropped] using ih
                | cons a as => simp [buildWhereClauses, List.filter_cons,
                    inFilterDropped, ih]
        | eq => simp [buildWhereClauses, List.filter_cons, inFilterDropped, ih]
        | neq => simp [buildWhereClauses, List.filter_cons, inFilterDropped, ih]
        | gt => simp [buildWhereClauses, List.filter_cons, inFilterDropped, ih]
        | gte => simp [buildWhereClauses, List.filter_cons, inFilterDropped, ih]
        | lt => simp [buildWhereClauses, List.filter_cons, inFilterDropped, ih]
        | lte => simp [buildWhereClauses, List.filter_cons, inFilterDropped, ih]
        | like => simp [buildWhereClauses, List.filter_cons, inFilterDropped, ih]
        | ilike => simp [buildWhereClauses, List.filter_cons, inFilterDropped, ih]
        | is => simp [buildWhereClauses, List.filter_cons, inFilterDropped, ih]
        | cs => simp [buildWhereClauses, List.filter_cons, inFilterDropped, ih]
  refine ⟨key, ?_⟩
  intro rows filters h1 h2
  unfold querySem
  rw [if_neg (by simp [h1]), if_neg (by simp [h2]), key filters]

/-- C1 (witness): with filters `[a in [], b eq 2]` the compiled WHERE
is that of `[b eq 2]` alone, and `query` filters rows by the remaining
clause only. -/
theorem c1_witness :
    buildWhereClauses [⟨"a", .inOp, .vArr []⟩, ⟨"b", .eq, .scl (.sInt 2)⟩] =
      buildWhereClauses
        (([⟨"a", .inOp, .vArr []⟩, ⟨"b", .eq, .scl (.sInt 2)⟩] : List Filter).filter
          (fun f => !inFilterDropped f)) ∧
    querySem [[("b", Value.scl (.sInt 3))]]
        [⟨"a", .inOp, .vArr []⟩, ⟨"b", .eq, .scl (.sInt 2)⟩] =
      .ok (([[("b", Value.scl (.sInt 3))]] : List Row).filter (fun r =>
        (buildWhereClauses
            (([⟨"a", .inOp, .vArr []⟩, ⟨"b", .eq, .scl (.sInt 2)⟩] : List Filter).filter
              (fun f => !inFilterDropped f))).all
          (clauseHolds r))) :=
  ⟨c1_empty_in_silently_ignored.1 _,
   c1_empty_in_silently_ignored.2 [[("b", Value.scl (.sInt 3))]] _ rfl rfl⟩

/-- C3 (counterexample). The claim says migration script application
and ledger insert are atomic, so no half-applied-but-unmarked state is
reachable through `migrate()`. But `migrate()` runs `db.exec` and the
ledger INSERT back to back with no transaction: with a two-statement
script whose second statement fails, `migrate` from an empty store
leaves the first statement applied and the ledger without the row. -/
theorem c3_counterexample :
    migrate [⟨"001_core.sql", [⟨"create_articles", true⟩, ⟨"create_tags", false⟩]⟩]
        ⟨[], []⟩ =
      (⟨[], ["create_articles"]⟩, false, ["001_core.sql"]) ∧
    (⟨[], ["create_articles"]⟩ : DbState).schema ≠ [] ∧
    "001_core.sql" ∉ (⟨[], ["create_articles"]⟩ : DbState).ledger := by
  refine ⟨rfl, by simp, by simp⟩

/-- C3 (amended). Each migration's script and ledger insert are NOT
atomic: `exec` applies statements one at a time with no transaction,
so a failure mid-script leaves every statement before the failing one
applied, and `migrate()` then aborts without inserting the ledger row —
the half-applied-but-unmarked state is exactly what results. -/
theorem c3_no_transaction :
    (∀ (pre : List Stmt) (s : Stmt) (post : List Stmt) (schema : List String),
       (∀ t ∈ pre, t.ok) → s.ok = false →
       execScript (pre ++ s :: post) schema = (schema ++ pre.map Stmt.sid, false)) ∧
    (∀ (m : Migration) (rest : List Migration) (st : DbState)
       (schema' : List String),
       m.name ∉ st.ledger → execScript m.sql st.schema = (schema', false) →
       migrate (m :: rest) st = (⟨st.ledger, schema'⟩, false, [m.name])) := by
  constructor
  · intro pre s post schema hpre hs
    induction pre generalizing schema with
    | nil => simp [execScript, hs]
    | cons t rest ih =>
        have ht : t.ok := hpre t (by simp)
        simp only [List.cons_append, execScript, if_pos ht]
        show execScript (rest ++ s :: post) (schema ++ [t.sid]) =
          (schema ++ List.map Stmt.sid (t :: rest), false)
        rw [ih (schema ++ [t.sid]) (fun u hu => hpre u (List.mem_cons_of_mem _ hu))]
        simp
  · intro m rest st schema' hmem hex
    exact migrate_cons_fail m rest st schema' hmem hex

/-- C3 (witness): the amended behavior at a concrete two-statement
script whose second statement fails, from an empty store. -/
theorem c3_witness :
    execScript [⟨"create_articles", true⟩, ⟨"create_tags", false⟩] [] =
      ([] ++ [Stmt.mk "create_articles" true].map Stmt.sid, false) ∧
    migrate [⟨"001_core.sql", [⟨"create_articles", true⟩, ⟨"create_tags", false⟩]⟩]
        ⟨[], []⟩ =
      (⟨[], ["create_articles"]⟩, false, ["001_core.sql"]) :=
  ⟨c3_no_transaction.1 [⟨"create_articles", true⟩] ⟨"create_tags", false⟩ []
      [] (by decide) rfl,
   c3_no_transaction.2
      ⟨"001_core.sql", [⟨"create_articles", true⟩, ⟨"create_tags", false⟩]⟩
      [] ⟨[], []⟩ ["create_articles"] (by simp) rfl⟩

/-- C7 (counterexample). The claim says: with auth enabled, a
presented secret exactly equal to the configured secret yields role
owner. With both secrets the empty string they are present and equal,
yet `resolveAuth` takes the falsy-check branch (`!providedKey ||
!ownerKey`) and returns public. -/
theorem c7_counterexample :
    resolveAuth true (some "") (some "") = ⟨Role.pub⟩ ∧
    (⟨Role.pub⟩ : AuthContext) ≠ ⟨Role.owner⟩ := by
  exact ⟨rfl, by simp⟩

/-- C7 (amended). `resolveAuth` is a pure function of its three inputs
such that: disabled auth grants owner to everyone; with auth enabled,
if either secret is absent **or empty** the caller is public; if both
are nonempty and exactly equal the caller is owner; otherwise
public. -/
theorem c7_resolveAuth_cases (authEnabled : Bool)
    (ownerKey providedKey : Option String) :
    (authEnabled = false →
       resolveAuth authEnabled ownerKey providedKey = ⟨.owner⟩) ∧
    (authEnabled = true →
       (falsyStr providedKey || falsyStr ownerKey) = true →
       resolveAuth authEnabled ownerKey providedKey = ⟨.pub⟩) ∧
    (authEnabled = true → falsyStr providedKey = false →
       falsyStr ownerKey = false → providedKey = ownerKey →
       resolveAuth authEnabled ownerKey providedKey = ⟨.owner⟩) ∧
    (authEnabled = true → falsyStr providedKey = false →
       falsyStr ownerKey = false → providedKey ≠ ownerKey →
       resolveAuth authEnabled ownerKey providedKey = ⟨.pub⟩) := by
  refine ⟨?_, ?_, ?_, ?_⟩
  · intro h; simp [resolveAuth, h]
  · intro h hf; simp [resolveAuth, h, hf]
  · intro h hp ho he; simp [resolveAuth, h, hp, ho, he]
  · intro h hp ho hne; simp [resolveAuth, h, hp, ho, hne]

/-- C7 (witness): with auth enabled and matching nonempty secrets the
caller is owner; with auth disabled everyone is owner. -/
theorem c7_witness :
    (falsyStr (some "s3cret") = false ∧
       resolveAuth true (some "s3cret") (some "s3cret") = ⟨.owner⟩) ∧
    resolveAuth false none none = ⟨.owner⟩ :=
  ⟨⟨rfl, (c7_resolveAuth_cases true (some "s3cret") (some "s3cret")).2.2.1
      rfl rfl rfl rfl⟩,
   (c7_resolveAuth_cases false none none).1 rfl⟩

/-- C8. `migrate()` is idempotent: if a run succeeds, a second run
against the resulting store executes no migration scripts and returns
the very same state, so the ledger (one row per migration name, and
duplicate-free if it started duplicate-free) keeps the same count. -/
theorem c8_migrate_idempotent :
    (∀ (migs : List Migration) (st st' : DbState) (ran : List String),
       migrate migs st = (st', true, ran) → migrate migs st' = (st', true, [])) ∧
    (∀ (migs : List Migration) (st : DbState),
       st.ledger.Nodup → (migrate migs st).1.ledger.Nodup) := by
  constructor
  · intro migs
    induction migs with
    | nil =>
        intro st st' ran h
        simp only [migrate, Prod.mk.injEq] at h
        obtain ⟨h1, -, -⟩ := h
        subst h1
        rfl
    | cons m rest ih =>
        intro st st' ran h
        by_cases hm : m.name ∈ st.ledger
        · rw [migrate_cons_skip m rest st hm] at h
          have h2 := ih st st' ran h
          have hmem : m.name ∈ st'.ledger := by
            have hmono := migrate_ledger_mono rest st m.name hm
            rw [h] at hmono
            exact hmono
          rw [migrate_cons_skip m rest st' hmem]
          exact h2
        · rcases hex : execScript m.sql st.schema with ⟨schema', ok⟩
          cases ok with
          | false =>
              rw [migrate_cons_fail m rest st schema' hm hex] at h
              simp at h
          | true =>
              rw [migrate_cons_ok m rest st schema' hm hex] at h
              rcases hrec : migrate rest ⟨st.ledger ++ [m.name], schema'⟩ with
                ⟨st'', ok'', ran'⟩
              rw [hrec] at h
              simp only [Prod.mk.injEq] at h
              obtain ⟨h1, h2, h3⟩ := h
              subst h1
              rw [h2] at hrec
              have hidem := ih _ _ _ hrec
              have hmem : m.name ∈ st''.ledger := by
                have hmono := migrate_ledger_mono rest
                  ⟨st.ledger ++ [m.name], schema'⟩ m.name (by simp)
                rw [hrec] at hmono
                exact hmono
              rw [migrate_cons_skip m rest st'' hmem]
              exact hidem
  · intro migs
    induction migs with
    | nil => intro st h; simpa [migrate] using h
    | cons m rest ih =>
        intro st h
        simp only [migrate]
        split
        · exact ih st h
        · rcases hex : execScript m.sql st.schema with ⟨schema', ok⟩
          cases ok with
          | false => simpa using h
          | true =>
              simp only
              rcases hrec : migrate rest ⟨st.ledger ++ [m.name], schema'⟩ with
                ⟨st'', ok'', ran'⟩
              simp only
              have hnd : (st.ledger ++ [m.name]).Nodup := by
                rw [← List.concat_eq_append]
                exact h.concat (by assumption)
              have := ih ⟨st.ledger ++ [m.name], schema'⟩ hnd
              rw [hrec] at this
              exact this

/-- C8 (witness): running the adapter's `MIGRATIONS` against an empty
store succeeds; re-running against the result executes nothing and
leaves the state (hence the ledger count) unchanged. -/
theorem c8_witness :
    migrate MIGRATIONS
        ⟨["001_core.sql", "002_editorial.sql", "003_usage.sql"],
         ["core_tables", "core_indexes", "editorial_tables",
          "editorial_indexes", "usage_tables", "usage_indexes"]⟩ =
      (⟨["001_core.sql", "002_editorial.sql", "003_usage.sql"],
        ["core_tables", "core_indexes", "editorial_tables",
         "editorial_indexes", "usage_tables", "usage_indexes"]⟩, true, []) :=
  c8_migrate_idempotent.1 MIGRATIONS ⟨[], []⟩ _
    ["001_core.sql", "002_editorial.sql", "003_usage.sql"] rfl

/-- C9 (counterexample). The claim says derived rates are rounded with
round-half-away-from-zero on the value scaled by 10. The code uses
`Math.round`, which rounds halves toward positive infinity: at the
raw rate `-0.25` (exactly representable in binary64, scaled value
`-2.5`) the code yields `-0.2` while the claimed rule yields `-0.3`. -/
theorem c9_counterexample :
    roundRate1 (-(1 : ℚ)/4) = -(1 : ℚ)/5 ∧
    specRoundRate1 (-(1 : ℚ)/4) = -(3 : ℚ)/10 ∧
    roundRate1 (-(1 : ℚ)/4) ≠ specRoundRate1 (-(1 : ℚ)/4) := by
  norm_num [roundRate1, specRoundRate1, mathRound, halfAwayFromZero]

/-- C9 (amended). The code rounds with `Math.round` (half toward
positive infinity) on the value scaled by 10, then divides by 10; on
nonnegative rates — which includes every average of nonnegative open
rates — this agrees with round-half-away-from-zero, and a raw rate of
12.345 reads back as 12.3 under exact arithmetic. -/
theorem c9_rounding_rule :
    (∀ x : ℚ, 0 ≤ x → roundRate1 x = specRoundRate1 x) ∧
    (∀ rates : List ℚ, (∀ r ∈ rates, 0 ≤ r) →
       statsAvgOpenRate rates = specRoundRate1 (avgOpenRate rates)) ∧
    roundRate1 (12345/1000) = 123/10 := by
  have key : ∀ x : ℚ, 0 ≤ x → roundRate1 x = specRoundRate1 x := by
    intro x hx
    unfold roundRate1 specRoundRate1 mathRound halfAwayFromZero
    rw [if_pos (by positivity)]
  refine ⟨key, ?_, ?_⟩
  · intro rates h
    apply key
    unfold avgOpenRate
    split
    · rfl
    · apply div_nonneg (List.sum_nonneg h) (by positivity)
  · norm_num [roundRate1, mathRound]

/-- C9 (witness): the rule instance at the nonnegative rate 12.35. -/
theorem c9_witness :
    (0 : ℚ) ≤ 247/20 ∧ roundRate1 (247/20) = specRoundRate1 (247/20) :=
  ⟨by norm_num, c9_rounding_rule.1 (247/20) (by norm_num)⟩

/-- C4. A request with a null or absent id (a notification) writes
nothing to the output stream: `handleMessage` emits no frame, while
the dispatcher's side effects still run — the resulting environment
state is exactly the dispatcher's post-state. -/
theorem c4_notification_no_output {σ : Type} (tools : List (McpTool σ))
    (req : JsonRpcRequest) (ctx : Option AuthContext) (st : σ)
    (h : req.id = .absent ∨ req.id = .jnull) :
    handleMessage tools req ctx st = ((handleJsonRpc tools req ctx st).1, []) := by
  rcases h with h | h <;> simp [handleMessage, h]

/-- C4 (witness): a notification `ping` produces no output; a
notification `tools/call` of a counter-bumping tool still performs its
side effect (state 0 becomes 1) and produces no output. -/
theorem c4_witness :
    handleMessage ([] : List (McpTool Nat)) ⟨.absent, "ping", none⟩ none 7 =
      (7, []) ∧
    handleMessage [tickTool] ⟨.jnull, "tools/call", some ⟨some "tick", none⟩⟩
        none 0 =
      (1, []) :=
  ⟨(c4_notification_no_output [] ⟨.absent, "ping", none⟩ none 7
      (Or.inl rfl)).trans rfl,
   (c4_notification_no_output [tickTool]
      ⟨.jnull, "tools/call", some ⟨some "tick", none⟩⟩ none 0
      (Or.inr rfl)).trans rfl⟩

/-- C5. `tools/call` without a tool name is answered with the
invalid-params code `-32602`; with a (nonempty, hence non-falsy) name
that is not in the registry, with the method-not-found code `-32601` —
in both cases an `mcpError` response, which carries no `result`
field. -/
theorem c5_tools_call_errors {σ : Type} (tools : List (McpTool σ))
    (req : JsonRpcRequest) (ctx : Option AuthContext) (st : σ)
    (hm : req.method = "tools/call") :
    (req.params.bind (fun p => p.name) = none →
       handleJsonRpc tools req ctx st =
         (st, .err req.id (-32602) "Missing tool name")) ∧
    (∀ nm, req.params.bind (fun p => p.name) = some nm → nm ≠ "" →
       toolMapGet tools nm = none →
       handleJsonRpc tools req ctx st =
         (st, .err req.id (-32601) ("Unknown tool: " ++ nm))) := by
  constructor
  · intro hnone
    simp [handleJsonRpc, hm, hnone]
  · intro nm hnm hne hlook
    simp [handleJsonRpc, hm, hnm, hne, hlook]

/-- C5 (witness): the spec's scenario — calling the unknown tool
`nonexistent_tool` yields code `-32601`, and a call without a name
yields `-32602`. -/
theorem c5_witness :
    handleJsonRpc ([] : List (McpTool Nat))
        ⟨.num 1, "tools/call", some ⟨none, none⟩⟩ none 0 =
      (0, .err (.num 1) (-32602) "Missing tool name") ∧
    handleJsonRpc ([] : List (McpTool Nat))
        ⟨.num 1, "tools/call", some ⟨some "nonexistent_tool", some []⟩⟩ none 0 =
      (0, .err (.num 1) (-32601) ("Unknown tool: " ++ "nonexistent_tool")) :=
  ⟨(c5_tools_call_errors [] ⟨.num 1, "tools/call", some ⟨none, none⟩⟩
        none 0 rfl).1 rfl,
   (c5_tools_call_errors []
        ⟨.num 1, "tools/call", some ⟨some "nonexistent_tool", some []⟩⟩
        none 0 rfl).2 "nonexistent_tool" rfl (by simp) rfl⟩

/-- C6. A registered tool handler that throws a value carrying both a
`code` and a `message` field has that pair surfaced verbatim as the
JSON-RPC error; any other thrown failure is wrapped as internal error
`-32603` with a message containing the failure's message. -/
theorem c6_handler_errors {σ : Type} (tools : List (McpTool σ))
    (id : RpcId) (nm : String) (argsOpt : Option Row)
    (ctx : Option AuthContext) (st : σ) (t : McpTool σ)
    (hne : nm ≠ "") (ht : toolMapGet tools nm = some t) :
    (∀ c m st', t.handler (argsOpt.getD []) ctx st = (st', .error (.coded c m)) →
       handleJsonRpc tools ⟨id, "tools/call", some ⟨some nm, argsOpt⟩⟩ ctx st =
         (st', .err id c m)) ∧
    (∀ m st', t.handler (argsOpt.getD []) ctx st = (st', .error (.exn m)) →
       handleJsonRpc tools ⟨id, "tools/call", some ⟨some nm, argsOpt⟩⟩ ctx st =
         (st', .err id (-32603) ("Tool error: " ++ m)) ∧
       ∃ s1, "Tool error: " ++ m = s1 ++ m) ∧
    (∀ s st', t.handler (argsOpt.getD []) ctx st = (st', .error (.strv s)) →
       handleJsonRpc tools ⟨id, "tools/call", some ⟨some nm, argsOpt⟩⟩ ctx st =
         (st', .err id (-32603) ("Tool error: " ++ s)) ∧
       ∃ s1, "Tool error: " ++ s = s1 ++ s) := by
  refine ⟨?_, ?_, ?_⟩
  · intro c m st' hh
    simp [handleJsonRpc, hne, ht, hh]
  · intro m st' hh
    refine ⟨by simp [handleJsonRpc, hne, ht, hh], "Tool error: ", rfl⟩
  · intro s st' hh
    refine ⟨by simp [handleJsonRpc, hne, ht, hh], "Tool error: ", rfl⟩

/-- C6 (witness): a tool throwing `{code: 403, message: "Owner access
required"}` is surfaced verbatim; a tool throwing `Error("boom")` is
wrapped as `-32603` with the message preserved. -/
theorem c6_witness :
    handleJsonRpc [failCodedTool, failExnTool]
        ⟨.num 2, "tools/call", some ⟨some "fail_coded", none⟩⟩ none 5 =
      (5, .err (.num 2) 403 "Owner access required") ∧
    handleJsonRpc [failCodedTool, failExnTool]
        ⟨.num 3, "tools/call", some ⟨some "fail_exn", none⟩⟩ none 5 =
      (5, .err (.num 3) (-32603) ("Tool error: " ++ "boom")) :=
  ⟨(c6_handler_errors [failCodedTool, failExnTool] (.num 2) "fail_coded"
      none none 5 failCodedTool (by simp) rfl).1 403
      "Owner access required" 5 rfl,
   ((c6_handler_errors [failCodedTool, failExnTool] (.num 3) "fail_exn"
      none none 5 failExnTool (by simp) rfl).2.1 "boom" 5 rfl).1⟩

/-- C10. `insert` mutates its argument: when the caller's row has an
absent or falsy `id`, the adapter writes a freshly generated id —
32 lowercase hex characters from 16 random bytes — into the caller's
own object before building the INSERT, and touches no other field. -/
theorem c10_insert_mutates_id (bytes : List Nat) (data : Row)
    (hlen : bytes.length = 16) (hbound : ∀ b ∈ bytes, b < 256)
    (hfalsy : falsyValue ((rowGet data "id").getD vNull) = true) :
    rowGet (insertAssignId bytes data) "id" =
        some (.scl (.sText (generateId bytes))) ∧
    (generateId bytes).length = 32 ∧
    (∀ c ∈ (generateId bytes).toList, c ∈ ("0123456789abcdef".toList)) ∧
    (∀ k, k ≠ "id" → rowGet (insertAssignId bytes data) k = rowGet data k) := by
  refine ⟨?_, ?_, ?_, ?_⟩
  · unfold insertAssignId
    rw [if_pos hfalsy]
    exact rowGet_rowSet_same data "id" _
  · rw [generateId_length, hlen]
  · intro c hc
    unfold generateId at hc
    have hc' : c ∈ (bytes.map byteHex).flatten := by
      simpa using hc
    obtain ⟨chunk, hchunk, hcc⟩ := List.mem_flatten.mp hc'
    obtain ⟨b, hb, rfl⟩ := List.mem_map.mp hchunk
    have hb256 := hbound b hb
    simp only [byteHex, List.mem_cons, List.mem_singleton,
      List.not_mem_nil, or_false] at hcc
    rcases hcc with h | h
    · exact h ▸ hexChar_mem (b / 16 % 16) (Nat.mod_lt _ (by omega))
    · exact h ▸ hexChar_mem (b % 16) (Nat.mod_lt _ (by omega))
  · intro k hk
    unfold insertAssignId
    rw [if_pos hfalsy]
    exact rowGet_rowSet_other data "id" k _ hk

/-- C10 (witness): inserting `{title: "Hi"}` with 16 concrete random
bytes writes the 32-char lowercase hex id into the caller's object and
leaves `title` unchanged. -/
theorem c10_witness :
    (rowGet (insertAssignId
        [0, 17, 34, 51, 68, 85, 102, 119, 136, 153, 170, 187, 204, 221, 238, 255]
        [("title", .scl (.sText "Hi"))]) "id" =
      some (.scl (.sText (generateId
        [0, 17, 34, 51, 68, 85, 102, 119, 136, 153, 170, 187, 204, 221, 238, 255]))) ∧
      (generateId
        [0, 17, 34, 51, 68, 85, 102, 119, 136, 153, 170, 187, 204, 221, 238, 255]).length = 32 ∧
      (∀ c ∈ (generateId
        [0, 17, 34, 51, 68, 85, 102, 119, 136, 153, 170, 187, 204, 221, 238, 255]).toList,
        c ∈ ("0123456789abcdef".toList)) ∧
      (∀ k, k ≠ "id" →
        rowGet (insertAssignId
          [0, 17, 34, 51, 68, 85, 102, 119, 136, 153, 170, 187, 204, 221, 238, 255]
          [("title", .scl (.sText "Hi"))]) k =
        rowGet [("title", .scl (.sText "Hi"))] k)) ∧
    generateId
        [0, 17, 34, 51, 68, 85, 102, 119, 136, 153, 170, 187, 204, 221, 238, 255] =
      "00112233445566778899aabbccddeeff" :=
  ⟨c10_insert_mutates_id _ _ rfl (by decide) rfl, by decide⟩

/-! # C2: the framer under chunking

Support lemmas characterising `findSub`, `contentLengthOf` and
`processBuffer` on canonical length-prefixed frames. -/

/-- A prefix's characters all occur in the haystack. -/
theorem isPrefixOf_mem {p l : List Char} (h : p.isPrefixOf l = true) :
    ∀ x ∈ p, x ∈ l := by
  induction p generalizing l with
  | nil => simp
  | cons a as ih =>
      cases l with
      | nil => simp [List.isPrefixOf] at h
      | cons b bs =>
          simp only [List.isPrefixOf, Bool.and_eq_true, beq_iff_eq] at h
          intro x hx
          rcases List.mem_cons.mp hx with rfl | hx'
          · simp [h.1]
          · exact List.mem_cons_of_mem _ (ih h.2 x hx')

/-- A list is a prefix of itself followed by anything. -/
theorem isPrefixOf_append_self (p t : List Char) :
    p.isPrefixOf (p ++ t) = true := by
  induction p with
  | nil => simp [List.isPrefixOf]
  | cons a as ih => simpa [List.isPrefixOf] using ih

/-- If some character of the pattern is missing from the haystack, the
search finds nothing. -/
theorem findSub_none_of_not_mem {pat l : List Char} {x : Char}
    (hx : x ∈ pat) (hl : x ∉ l) : findSub pat l = none := by
  induction l with
  | nil =>
      cases pat with
      | nil => cases hx
      | cons p ps => simp [findSub, List.isPrefixOf]
  | cons c rest ih =>
      simp only [findSub]
      rw [if_neg (fun hp => hl (isPrefixOf_mem hp x hx)),
          ih (fun hm => hl (List.mem_cons_of_mem _ hm))]
      rfl

/-- `CRLF2` cannot start at a character other than `\r`. -/
theorem crlf2_not_prefix_cons {a : Char} {l : List Char} (ha : a ≠ '\r') :
    CRLF2.isPrefixOf (a :: l) = false := by
  have hne : (('\r' : Char) == a) = false := beq_eq_false_iff_ne.mpr (Ne.symm ha)
  simp [CRLF2, List.isPrefixOf, hne]

/-- A nonempty pattern is found at position 0 of itself. -/
theorem findSub_self_append (pat t : List Char) (hp : pat ≠ []) :
    findSub pat (pat ++ t) = some 0 := by
  cases pat with
  | nil => cases hp rfl
  | cons p ps =>
      simp only [List.cons_append, findSub]
      rw [if_pos]
      exact isPrefixOf_append_self (p :: ps) t

/-- Scanning for `\r\n\r\n` over a run of non-`\r` characters finds
the terminator exactly where the run ends. -/
theorem findSub_crlf2_canon {A t : List Char} (hA : ∀ c ∈ A, c ≠ '\r') :
    findSub CRLF2 (A ++ (CRLF2 ++ t)) = some A.length := by
  induction A with
  | nil => simpa using findSub_self_append CRLF2 t (by simp [CRLF2])
  | cons a A' ih =>
      have ha : a ≠ '\r' := hA a (by simp)
      simp only [List.cons_append, findSub, List.append_eq]
      rw [if_neg (by simp [crlf2_not_prefix_cons ha]),
          ih (fun c hc => hA c (List.mem_cons_of_mem _ hc))]
      simp

/-- Digits are not `\r`, `\n`, or JS whitespace. -/
theorem digit_ne_cr {c : Char} (h : c.isDigit = true) : c ≠ '\r' := by
  rintro rfl; revert h; decide

theorem digit_ne_nl {c : Char} (h : c.isDigit = true) : c ≠ '\n' := by
  rintro rfl; revert h; decide

theorem digit_not_jsSpace {c : Char} (h : c.isDigit = true) :
    isJsSpace c = false := by
  simp only [isJsSpace, Bool.or_eq_false_iff, beq_eq_false_iff_ne]
  refine ⟨⟨⟨⟨⟨?_, ?_⟩, ?_⟩, ?_⟩, ?_⟩, ?_⟩ <;> (rintro rfl; revert h; decide)

/-- The header literal contains no `\r` and no `\n`. -/
theorem clHeaderChars_no_cr : ∀ c ∈ clHeaderChars, c ≠ '\r' := by decide

theorem clHeaderChars_no_nl : ('\n' : Char) ∉ clHeaderChars := by decide

/-- A run of digits is taken whole by `takeWhile isDigit`. -/
theorem takeWhile_digits {ds : List Char} (h : ∀ c ∈ ds, c.isDigit) :
    ds.takeWhile Char.isDigit = ds := by
  induction ds with
  | nil => rfl
  | cons d ds' ih =>
      have hd : d.isDigit = true := h d (by simp)
      simp [List.takeWhile_cons, hd,
        ih (fun c hc => h c (List.mem_cons_of_mem _ hc))]

/-- The `Content-Length` regex matches a canonical header exactly,
producing the digits' value. -/
theorem matchCL_canon {ds : List Char} (hds : ds ≠ [])
    (hdig : ∀ c ∈ ds, c.isDigit) :
    matchCL (clHeaderChars ++ ds) = some (digitsToNat ds) := by
  have hstrip : stripCI clPat (clHeaderChars ++ ds) = some (' ' :: ds) := rfl
  unfold matchCL
  rw [hstrip]
  cases ds with
  | nil => cases hds rfl
  | cons d ds' =>
      have hd := hdig d (by simp)
      have hdrop : List.dropWhile isJsSpace (' ' :: (d :: ds')) = d :: ds' := by
        rw [List.dropWhile_cons, if_pos (by decide : isJsSpace ' ' = true),
            List.dropWhile_cons,
            if_neg (by simp [digit_not_jsSpace hd] : ¬isJsSpace d = true)]
      simp [hdrop, takeWhile_digits hdig]

/-- The regex search succeeds at position 0 on a canonical header. -/
theorem contentLengthOf_canon {ds : List Char} (hds : ds ≠ [])
    (hdig : ∀ c ∈ ds, c.isDigit) :
    contentLengthOf (clHeaderChars ++ ds) = some (digitsToNat ds) := by
  have hshape : clHeaderChars ++ ds =
      'C' :: ("ontent-Length: ".toList ++ ds) := rfl
  rw [hshape]
  simp only [contentLengthOf]
  rw [← hshape, matchCL_canon hds hdig]

/-- `headerInfo` yields `none` on the empty buffer. -/
theorem headerInfo_nil : headerInfo ([] : List Char) = none := by
  simp [headerInfo, findSub, List.isPrefixOf, CRLF2]

/-- `processBuffer` unfolding: a complete header with fewer than
`contentLength` body bytes available consumes nothing — the header and
partial body stay buffered. -/
theorem processBuffer_wait {buffer : List Char} {he n : Nat}
    (hh : headerInfo buffer = some (he, n))
    (hav : buffer.length - (he + 4) < n) :
    processBuffer buffer = ([], buffer) := by
  have hne : buffer.isEmpty = false := by
    cases buffer with
    | nil => rw [headerInfo_nil] at hh; cases hh
    | cons c rest => rfl
  unfold processBuffer
  rw [hh]
  simp [hne, hav]

/-- `processBuffer` unfolding: a complete header with at least
`contentLength` bytes after it extracts the body and continues on the
rest. -/
theorem processBuffer_extract {buffer : List Char} {he n : Nat}
    (hh : headerInfo buffer = some (he, n))
    (hav : n ≤ buffer.length - (he + 4)) :
    processBuffer buffer =
      ((buffer.drop (he + 4)).take n ::
         (processBuffer (buffer.drop (he + 4 + n))).1,
       (processBuffer (buffer.drop (he + 4 + n))).2) := by
  have hne : buffer.isEmpty = false := by
    cases buffer with
    | nil => rw [headerInfo_nil] at hh; cases hh
    | cons c rest => rfl
  rw [processBuffer.eq_def, hh]
  simp only [hne, Bool.false_eq_true, ↓reduceDIte]
  rw [if_neg (by omega)]

/-- `processBuffer` unfolding: no complete header and no newline means
nothing can be extracted. -/
theorem processBuffer_stuck {buffer : List Char}
    (hh : headerInfo buffer = none)
    (hnl : findSub ['\n'] buffer = none) :
    processBuffer buffer = ([], buffer) := by
  cases hbe : buffer.isEmpty with
  | true =>
      have : buffer = [] := by simpa using hbe
      subst this
      unfold processBuffer
      simp
  | false =>
      unfold processBuffer
      rw [hh, hnl]
      simp [hbe]

/-- The length of a canonical frame. -/
theorem frameOf_length (ds body : List Char) :
    (frameOf ds body).length = 16 + ds.length + 4 + body.length := by
  simp [frameOf, clHeaderChars, CRLF2]
  omega

/-- `streamOf` unfolding. -/
theorem streamOf_cons (f : List Char × List Char)
    (fs : List (List Char × List Char)) :
    streamOf (f :: fs) = frameOf f.1 f.2 ++ streamOf fs := by
  simp [streamOf]

/-- On a buffer that starts with a canonical header, `headerInfo`
reports the header end and the announced length. -/
theorem headerInfo_canon {ds R : List Char} (hds : ds ≠ [])
    (hdig : ∀ c ∈ ds, c.isDigit) :
    headerInfo (clHeaderChars ++ ds ++ (CRLF2 ++ R)) =
      some (16 + ds.length, digitsToNat ds) := by
  have hA : ∀ c ∈ clHeaderChars ++ ds, c ≠ '\r' := by
    intro c hc
    rcases List.mem_append.mp hc with h | h
    · exact clHeaderChars_no_cr c h
    · exact digit_ne_cr (hdig c h)
  have hlen : (clHeaderChars ++ ds).length = 16 + ds.length := by
    simp [clHeaderChars]
    omega
  have hfs : findSub CRLF2 ((clHeaderChars ++ ds) ++ (CRLF2 ++ R)) =
      some (16 + ds.length) := by
    rw [findSub_crlf2_canon hA, hlen]
  have htake : ((clHeaderChars ++ ds) ++ (CRLF2 ++ R)).take (16 + ds.length) =
      clHeaderChars ++ ds := List.take_left' hlen
  unfold headerInfo
  rw [show clHeaderChars ++ ds ++ (CRLF2 ++ R) =
      (clHeaderChars ++ ds) ++ (CRLF2 ++ R) from by simp [List.append_assoc]]
  simp only [hfs, htake, contentLengthOf_canon hds hdig, Option.map_some']

/-- A safe position strictly inside a frame is outside the two
excluded offsets of the terminating blank line. -/
theorem flen_pos (f : List Char × List Char) : 0 < flen f := by
  unfold flen
  omega

theorem safeLen_cons_elim {f : List Char × List Char}
    {fs : List (List Char × List Char)} {n : Nat}
    (h : safeLen (f :: fs) n = true) (hlt : n < flen f) (hpos : 0 < n) :
    n ≤ 16 + f.1.length + 1 ∨ 16 + f.1.length + 4 ≤ n := by
  simp only [safeLen] at h
  rw [if_neg (by omega), if_neg (by omega)] at h
  simpa using h

/-- A safe position past a frame is a safe position in the rest. -/
theorem safeLen_cons_step {f : List Char × List Char}
    {fs : List (List Char × List Char)} {n : Nat}
    (h : safeLen (f :: fs) n = true) (hle : flen f ≤ n) :
    safeLen fs (n - flen f) = true := by
  have hpos := flen_pos f
  simp only [safeLen] at h
  rw [if_neg (by omega), if_pos hle] at h
  exact h

/-- Position 0 is always safe. -/
theorem safeLen_zero (fs : List (List Char × List Char)) :
    safeLen fs 0 = true := by
  cases fs with
  | nil => rfl
  | cons f fs' => simp [safeLen]

/-- The byte length of a frame sequence. -/
theorem streamOf_cons_length (f : List Char × List Char)
    (fs : List (List Char × List Char)) :
    (streamOf (f :: fs)).length = flen f + (streamOf fs).length := by
  rw [streamOf_cons, List.length_append, frameOf_length]
  rfl

/-- Positions counted past a consumed frame group translate into the
remaining frames. -/
theorem safeLen_append_peel (fs₁ fs₂ : List (List Char × List Char))
    (m : Nat) :
    safeLen (fs₁ ++ fs₂) ((streamOf fs₁).length + m) = safeLen fs₂ m := by
  induction fs₁ generalizing m with
  | nil => simp [streamOf]
  | cons f fs₁' ih =>
      have hlen := streamOf_cons_length f fs₁'
      have hfp := flen_pos f
      simp only [List.cons_append, safeLen]
      rw [if_neg (by omega), if_pos (by omega)]
      have harith : (streamOf (f :: fs₁')).length + m - flen f =
          (streamOf fs₁').length + m := by omega
      rw [harith]
      exact ih m

/-- The end of the whole stream is a safe position. -/
theorem safeLen_total (fs : List (List Char × List Char)) :
    safeLen fs (streamOf fs).length = true := by
  have := safeLen_append_peel fs [] 0
  simpa using this

/-- `processBuffer` on a safe prefix of a canonical stream behaves as
`canonSpec`: it extracts exactly the fully delivered frame bodies and
leaves the partial tail buffered. -/
theorem processBuffer_canon (fs : List (List Char × List Char)) :
    ∀ P t : List Char, (∀ f ∈ fs, wfFrame f) → P ++ t = streamOf fs →
      safeLen fs P.length = true → processBuffer P = canonSpec fs P := by
  induction fs with
  | nil =>
      intro P t hwf hpre hsafe
      have hP : P = [] := by
        have hlen := congrArg List.length hpre
        simp [streamOf] at hlen
        exact hlen.1
      subst hP
      rw [processBuffer_stuck headerInfo_nil (by rfl)]
      rfl
  | cons f fs' ih =>
      intro P t hwf hpre hsafe
      obtain ⟨ds, body⟩ := f
      have hwf0 : wfFrame (ds, body) := hwf (ds, body) (by simp)
      obtain ⟨hds, hdig, hbl⟩ := hwf0
      dsimp only at hds hdig hbl
      have hflen : flen (ds, body) = 16 + ds.length + 4 + body.length := rfl
      have h16 : clHeaderChars.length = 16 := rfl
      have hCR4 : (CRLF2 : List Char).length = 4 := rfl
      have hA2len : (clHeaderChars ++ ds).length = 16 + ds.length := by
        rw [List.length_append, h16]
      have hFlen : ((clHeaderChars ++ ds) ++ (CRLF2 ++ body)).length =
          16 + ds.length + 4 + body.length := by
        rw [List.length_append, hA2len, List.length_append, hCR4]
        omega
      have hstream : streamOf ((ds, body) :: fs') =
          (clHeaderChars ++ ds) ++ (CRLF2 ++ (body ++ streamOf fs')) := by
        rw [streamOf_cons]
        simp [frameOf, List.append_assoc]
      have hPtake : P = (streamOf ((ds, body) :: fs')).take P.length := by
        rw [← hpre, List.take_left]
      have hlenX : P.length + t.length =
          (streamOf ((ds, body) :: fs')).length := by
        have := congrArg List.length hpre
        simpa using this
      have hXlen : (streamOf ((ds, body) :: fs')).length =
          (16 + ds.length + 4 + body.length) + (streamOf fs').length := by
        rw [hstream, List.length_append, hA2len, List.length_append, hCR4,
            List.length_append]
        omega
      rcases Nat.eq_zero_or_pos P.length with hzero | hpos
      · -- empty buffer
        have hP : P = [] := List.eq_nil_of_length_eq_zero hzero
        subst hP
        rw [processBuffer_stuck headerInfo_nil (by rfl)]
        simp only [canonSpec]
        rw [if_neg (by rw [hflen]; simp)]
      rcases Nat.lt_or_ge P.length (16 + ds.length + 4) with hshort | hhdr
      · -- strictly inside the header: safety forces the no-newline zone
        have hz := safeLen_cons_elim hsafe (by rw [hflen]; omega) hpos
        dsimp only at hz
        have hnl2 : P.length ≤ 16 + ds.length + 1 := by
          rcases hz with h | h
          · exact h
          · omega
        have hshape2 : streamOf ((ds, body) :: fs') =
            (clHeaderChars ++ ds ++ ['\r']) ++
              ('\n' :: '\r' :: '\n' :: (body ++ streamOf fs')) := by
          rw [hstream]
          simp [CRLF2, List.append_assoc]
        have hAlen : (clHeaderChars ++ ds ++ ['\r']).length =
            16 + ds.length + 1 := by
          rw [List.length_append, hA2len]
          rfl
        have hPA : P = (clHeaderChars ++ ds ++ ['\r']).take P.length := by
          conv_lhs => rw [hPtake]
          rw [hshape2, List.take_append_of_le_length (by rw [hAlen]; omega)]
        have hnoNl : ('\n' : Char) ∉ P := by
          rw [hPA]
          intro hmem
          have hmem' := List.take_subset _ _ hmem
          rcases List.mem_append.mp hmem' with h1 | h1
          · rcases List.mem_append.mp h1 with h2 | h2
            · exact clHeaderChars_no_nl h2
            · exact digit_ne_nl (hdig _ h2) rfl
          · simp at h1
        have hhi : headerInfo P = none := by
          unfold headerInfo
          rw [findSub_none_of_not_mem (by decide : ('\n' : Char) ∈ CRLF2) hnoNl]
        rw [processBuffer_stuck hhi
          (findSub_none_of_not_mem (by simp) hnoNl)]
        simp only [canonSpec]
        rw [if_neg (by rw [hflen]; omega)]
      rcases Nat.lt_or_ge P.length (16 + ds.length + 4 + body.length)
        with hpart | hfull
      · -- full header, partial body: the framer waits
        have hPB : P = (clHeaderChars ++ ds) ++
            (CRLF2 ++ body.take (P.length - (16 + ds.length + 4))) := by
          conv_lhs => rw [hPtake]
          rw [hstream, List.take_append_eq_append_take,
              List.take_all_of_le (by rw [hA2len]; omega), hA2len,
              List.take_append_eq_append_take,
              List.take_all_of_le (by rw [hCR4]; omega), hCR4,
              List.take_append_of_le_length (by omega)]
          have harith : P.length - (16 + ds.length) - 4 =
              P.length - (16 + ds.length + 4) := by omega
          rw [harith]
        have hhi : headerInfo P = some (16 + ds.length, digitsToNat ds) := by
          rw [hPB]
          exact headerInfo_canon hds hdig
        have hwait : P.length - (16 + ds.length + 4) < digitsToNat ds := by
          rw [← hbl]
          omega
        rw [processBuffer_wait hhi hwait]
        simp only [canonSpec]
        rw [if_neg (by rw [hflen]; omega)]
      · -- the frame is fully present: extract the body and recurse
        have hQdef : P = ((clHeaderChars ++ ds) ++ (CRLF2 ++ body)) ++
            (streamOf fs').take
              (P.length - (16 + ds.length + 4 + body.length)) := by
          conv_lhs => rw [hPtake]
          rw [hstream,
              show (clHeaderChars ++ ds) ++ (CRLF2 ++ (body ++ streamOf fs')) =
                ((clHeaderChars ++ ds) ++ (CRLF2 ++ body)) ++ streamOf fs'
              from by simp [List.append_assoc],
              List.take_append_eq_append_take,
              List.take_all_of_le (by rw [hFlen]; omega), hFlen]
        set Q := (streamOf fs').take
          (P.length - (16 + ds.length + 4 + body.length)) with hQ
        have hQlen : Q.length =
            P.length - (16 + ds.length + 4 + body.length) := by
          rw [hQ, List.length_take]
          have hPle : P.length ≤ (streamOf ((ds, body) :: fs')).length := by
            omega
          rw [hXlen] at hPle
          omega
        have hQt : Q ++ t = streamOf fs' := by
          have h1 : ((clHeaderChars ++ ds) ++ (CRLF2 ++ body)) ++ (Q ++ t) =
              ((clHeaderChars ++ ds) ++ (CRLF2 ++ body)) ++ streamOf fs' := by
            rw [← List.append_assoc, ← hQdef, hpre, hstream]
            simp [List.append_assoc]
          exact List.append_cancel_left h1
        have hhi : headerInfo P = some (16 + ds.length, digitsToNat ds) := by
          rw [show P = (clHeaderChars ++ ds) ++ (CRLF2 ++ (body ++ Q)) from by
            rw [hQdef]; simp [List.append_assoc]]
          exact headerInfo_canon hds hdig
        have hav : digitsToNat ds ≤ P.length - (16 + ds.length + 4) := by
          rw [← hbl]
          omega
        rw [processBuffer_extract hhi hav]
        have hdropHdr : P.drop (16 + ds.length + 4) = body ++ Q := by
          rw [show P = ((clHeaderChars ++ ds) ++ CRLF2) ++ (body ++ Q) from by
            rw [hQdef]; simp [List.append_assoc]]
          refine List.drop_left' ?_
          rw [List.length_append, hA2len, hCR4]
        have hbody : (P.drop (16 + ds.length + 4)).take (digitsToNat ds) =
            body := by
          rw [hdropHdr]
          exact List.take_left' hbl
        have hrest : P.drop (16 + ds.length + 4 + digitsToNat ds) = Q := by
          rw [show P = (((clHeaderChars ++ ds) ++ CRLF2) ++ body) ++ Q from by
            rw [hQdef]; simp [List.append_assoc]]
          refine List.drop_left' ?_
          rw [List.length_append, List.length_append, hA2len, hCR4, hbl]
        have hrec : processBuffer Q = canonSpec fs' Q := by
          refine ih Q t (fun g hg => hwf g (List.mem_cons_of_mem _ hg)) hQt ?_
          have hstep := safeLen_cons_step hsafe (by rw [hflen]; omega)
          rw [hflen] at hstep
          rw [hQlen]
          exact hstep
        rw [hbody, hrest, hrec]
        simp only [canonSpec]
        rw [if_pos (by rw [hflen]; omega)]
        have hdropF : P.drop (flen (ds, body)) = Q := by
          rw [hflen, ← hrest, hbl]
        rw [hdropF]

/-- `canonSpec` on a prefix of a canonical stream: it splits the frame
list into the fully delivered group and the pending group, returns the
delivered bodies, and leaves a buffered remainder shorter than the
next pending frame. -/
theorem canonSpec_split (fs : List (List Char × List Char)) :
    ∀ B t : List Char, B ++ t = streamOf fs →
      ∃ fs₁ fs₂, fs = fs₁ ++ fs₂ ∧
        (streamOf fs₁).length ≤ B.length ∧
        canonSpec fs B = (fs₁.map Prod.snd, B.drop (streamOf fs₁).length) ∧
        B.drop (streamOf fs₁).length ++ t = streamOf fs₂ ∧
        ((fs₂ = [] ∧ B.drop (streamOf fs₁).length = []) ∨
          ∃ g gs, fs₂ = g :: gs ∧
            (B.drop (streamOf fs₁).length).length < flen g) := by
  induction fs with
  | nil =>
      intro B t hpre
      have hB : B = [] := by
        have := congrArg List.length hpre
        simp [streamOf] at this
        exact this.1
      subst hB
      refine ⟨[], [], rfl, by simp [streamOf], by simp [canonSpec, streamOf], ?_, ?_⟩
      · simpa [streamOf] using hpre
      · exact Or.inl ⟨rfl, by simp [streamOf]⟩
  | cons f fs' ih =>
      intro B t hpre
      have hfr : (frameOf f.1 f.2).length = flen f := by
        rw [frameOf_length]
        rfl
      by_cases hle : flen f ≤ B.length
      · -- this frame is fully inside the buffer
        have htake : B.take (flen f) = frameOf f.1 f.2 := by
          have h1 : (B ++ t).take (flen f) = B.take (flen f) :=
            List.take_append_of_le_length hle
          rw [hpre, streamOf_cons] at h1
          rw [← h1, List.take_left' hfr]
        have hdrop : B.drop (flen f) ++ t = streamOf fs' := by
          have h1 : (B ++ t).drop (flen f) = B.drop (flen f) ++ t :=
            List.drop_append_of_le_length hle
          rw [hpre, streamOf_cons, List.drop_left' hfr] at h1
          exact h1.symm
        obtain ⟨fs₁', fs₂', heq, hlen1, hcs, hrem, hlast⟩ :=
          ih (B.drop (flen f)) t hdrop
        have hlenB : (B.drop (flen f)).length = B.length - flen f :=
          List.length_drop _ _
        have hdd : ∀ k, (B.drop (flen f)).drop k = B.drop (flen f + k) :=
          fun k => List.drop_drop k (flen f) B
        refine ⟨f :: fs₁', fs₂', by rw [heq]; rfl, ?_, ?_, ?_, ?_⟩
        · rw [streamOf_cons_length]
          omega
        · simp only [canonSpec]
          rw [if_pos hle, hcs]
          simp only [List.map_cons]
          rw [streamOf_cons_length, ← hdd ((streamOf fs₁').length)]
        · rw [streamOf_cons_length, ← hdd ((streamOf fs₁').length)]
          exact hrem
        · rw [streamOf_cons_length, ← hdd ((streamOf fs₁').length)]
          exact hlast
      · -- the frame is only partially there
        refine ⟨[], f :: fs', rfl, by simp [streamOf], ?_, ?_, ?_⟩
        · simp only [canonSpec]
          rw [if_neg hle]
          simp [streamOf]
        · simpa [streamOf] using hpre
        · exact Or.inr ⟨f, fs', rfl, by simpa [streamOf] using Nat.lt_of_not_ge hle⟩

/-- The accumulate-and-drain fold over safe chunks of a canonical
stream: starting from a drained buffer, it extracts exactly the frame
bodies in order and ends with an empty buffer. -/
theorem feed_fold_canon (chunks : List (List Char)) :
    ∀ (pend : List (List Char × List Char)) (acc : List (List Char))
      (buf : List Char),
      (∀ f ∈ pend, wfFrame f) →
      buf ++ chunks.flatten = streamOf pend →
      ((pend = [] ∧ buf = []) ∨
        ∃ g gs, pend = g :: gs ∧ buf.length < flen g) →
      (∀ j, j ≤ chunks.length →
        safeLen pend (buf.length + ((chunks.take j).flatten).length) = true) →
      chunks.foldl feedStep (acc, buf) = (acc ++ pend.map Prod.snd, []) := by
  induction chunks with
  | nil =>
      intro pend acc buf hwf hpre hinv hsafe
      rcases hinv with ⟨hp, hb⟩ | ⟨g, gs, hp, hlt⟩
      · subst hp; subst hb
        simp
      · exfalso
        subst hp
        have h1 : buf.length = (streamOf (g :: gs)).length := by
          have := congrArg List.length hpre
          simpa using this
        rw [streamOf_cons_length] at h1
        omega
  | cons c rest ih =>
      intro pend acc buf hwf hpre hinv hsafe
      have hBt : (buf ++ c) ++ rest.flatten = streamOf pend := by
        rw [List.append_assoc, ← List.flatten_cons]
        exact hpre
      have hsafeB : safeLen pend (buf ++ c).length = true := by
        have h1 := hsafe 1 (by simp)
        simpa [List.length_append] using h1
      have hpb : processBuffer (buf ++ c) = canonSpec pend (buf ++ c) :=
        processBuffer_canon pend (buf ++ c) rest.flatten hwf hBt hsafeB
      obtain ⟨fs₁, fs₂, heq, hlen1, hcs, hrem, hlast⟩ :=
        canonSpec_split pend (buf ++ c) rest.flatten hBt
      have hstep : feedStep (acc, buf) c =
          (acc ++ fs₁.map Prod.snd, (buf ++ c).drop (streamOf fs₁).length) := by
        unfold feedStep
        rw [hpb, hcs]
      rw [List.foldl_cons, hstep]
      have hwf2 : ∀ f ∈ fs₂, wfFrame f := by
        intro g hg
        exact hwf g (by rw [heq]; exact List.mem_append_right _ hg)
      have hrlen : ((buf ++ c).drop (streamOf fs₁).length).length =
          (buf ++ c).length - (streamOf fs₁).length := List.length_drop _ _
      have hsafe2 : ∀ j, j ≤ rest.length →
          safeLen fs₂ (((buf ++ c).drop (streamOf fs₁).length).length +
            ((rest.take j).flatten).length) = true := by
        intro j hj
        have h1 := hsafe (j + 1) (by simpa using hj)
        have h2 : (((c :: rest).take (j + 1)).flatten).length =
            c.length + ((rest.take j).flatten).length := by
          simp [List.take_succ_cons]
        rw [h2, heq] at h1
        have h3 : buf.length + (c.length + ((rest.take j).flatten).length) =
            (streamOf fs₁).length +
              (((buf ++ c).drop (streamOf fs₁).length).length +
                ((rest.take j).flatten).length) := by
          have hlen1' : (streamOf fs₁).length ≤ buf.length + c.length := by
            simpa [List.length_append] using hlen1
          rw [hrlen, List.length_append]
          omega
        rw [h3, safeLen_append_peel] at h1
        exact h1
      rw [ih fs₂ (acc ++ fs₁.map Prod.snd)
        ((buf ++ c).drop (streamOf fs₁).length) hwf2 hrem hlast hsafe2]
      rw [heq, List.map_append, List.append_assoc]

/-- C2 (counterexample). The claim says chunked delivery always
extracts the same message bodies as one-shot delivery. Splitting
`Content-Length: 5\r\n\r\nhello` right after the header's first CRLF
makes the line-delimited fallback fire on the partial header: the
chunked run hands the header line itself to `handleMessage` (dropped
as malformed JSON) and never extracts `hello`, while the one-shot run
extracts `hello`. -/
theorem c2_counterexample :
    (feedChunks ["Content-Length: 5\r\n".toList, "\r\nhello".toList]).1 ≠
      (feedChunks [("Content-Length: 5\r\n" ++ "\r\nhello").toList]).1 ∧
    (feedChunks ["Content-Length: 5\r\n".toList, "\r\nhello".toList]).1 =
      ["Content-Length: 5".toList] ∧
    (feedChunks [("Content-Length: 5\r\n" ++ "\r\nhello").toList]).1 =
      ["hello".toList] := by
  refine ⟨?_, ?_, ?_⟩ <;>
    simp +decide [feedChunks, feedStep, processBuffer, headerInfo, findSub,
      matchCL, contentLengthOf, stripCI, clPat, jsTrim, isJsSpace, digitsToNat]

/-- C2 (amended). (1) When a buffered Content-Length header announces
`n` bytes and fewer than `n` are available, `processBuffer` consumes
nothing — header and partial body stay buffered until more input
arrives. (2) Chunked delivery of a stream of canonical length-prefixed
frames extracts exactly the frame bodies, in order, with an empty
final buffer — the same result as delivering the whole stream as one
chunk — provided no chunk boundary falls strictly inside a frame's
terminating blank line (the two cut positions that expose a newline
before `\r\n\r\n` is complete, where the line-delimited fallback
corrupts the stream, as the counterexample shows). -/
theorem c2_chunking :
    (∀ (buffer : List Char) (he n : Nat),
       headerInfo buffer = some (he, n) →
       buffer.length - (he + 4) < n →
       processBuffer buffer = ([], buffer)) ∧
    (∀ (fs : List (List Char × List Char)) (chunks : List (List Char)),
       (∀ f ∈ fs, wfFrame f) →
       chunks.flatten = streamOf fs →
       (∀ j, j ≤ chunks.length →
         safeLen fs ((chunks.take j).flatten).length = true) →
       feedChunks chunks = (fs.map Prod.snd, []) ∧
       feedChunks [chunks.flatten] = (fs.map Prod.snd, [])) := by
  constructor
  · intro buffer he n hh hav
    exact processBuffer_wait hh hav
  · intro fs chunks hwf hconcat hsafe
    have hinv : (fs = [] ∧ ([] : List Char) = []) ∨
        ∃ g gs, fs = g :: gs ∧ ([] : List Char).length < flen g := by
      cases fs with
      | nil => exact Or.inl ⟨rfl, rfl⟩
      | cons g gs => exact Or.inr ⟨g, gs, rfl, flen_pos g⟩
    constructor
    · have := feed_fold_canon chunks fs [] [] hwf (by simpa using hconcat)
        hinv (by intro j hj; simpa using hsafe j hj)
      simpa [feedChunks] using this
    · have hsafe1 : ∀ j, j ≤ ([chunks.flatten] : List (List Char)).length →
          safeLen fs ((([chunks.flatten].take j)).flatten).length = true := by
        intro j hj
        rcases j with _ | j'
        · simpa using safeLen_zero fs
        · have hj1 : j' = 0 := by simpa using hj
          subst hj1
          have : (([chunks.flatten].take 1)).flatten = chunks.flatten := by simp
          rw [this, hconcat]
          exact safeLen_total fs
      have := feed_fold_canon [chunks.flatten] fs [] [] hwf
        (by simpa using hconcat) hinv
        (by intro j hj; simpa using hsafe1 j hj)
      simpa [feedChunks] using this

/-- C2 (witness): splitting `Content-Length: 5\r\n\r\nhello` inside
the body (`…hel` + `lo`) extracts exactly `hello` with an empty final
buffer, as does one-shot delivery; and the `…hel` buffer alone waits
(header and partial body unconsumed). -/
theorem c2_witness :
    processBuffer ("Content-Length: 5\r\n\r\nhel".toList) =
      ([], "Content-Length: 5\r\n\r\nhel".toList) ∧
    feedChunks ["Content-Length: 5\r\n\r\nhel".toList, "lo".toList] =
      (["hello".toList], []) ∧
    feedChunks [("Content-Length: 5\r\n\r\nhel" ++ "lo").toList] =
      (["hello".toList], []) :=
  ⟨c2_chunking.1 "Content-Length: 5\r\n\r\nhel".toList 17 5 (by decide)
      (by decide),
   (c2_chunking.2 [(['5'], "hello".toList)]
      ["Content-Length: 5\r\n\r\nhel".toList, "lo".toList]
      (by decide) (by decide) (by decide)).1,
   (c2_chunking.2 [(['5'], "hello".toList)]
      ["Content-Length: 5\r\n\r\nhel".toList, "lo".toList]
      (by decide) (by decide) (by decide)).2⟩

end Inkwell
